import Mathlib

/-!
Verification of the claude-command-center core: the streak segmenter
(scripts/backfill-autonomy-streaks.py) and the SSE data streamer
(scripts/ccc-api-server.py, class DataStreamer).

Shallow embedding conventions:
* Python floats (unix timestamps, durations, thresholds) are modelled as ℚ.
* JSON-serializable payloads are modelled by the mutual inductive `Json`
  (mappings as ordered association lists, as Python dicts preserve
  insertion order).
* `json.dumps(data)` is modelled by `serialize` (insertion order);
  `json.dumps(data, sort_keys=True)` by `dumps` (each mapping rendered
  with its keys in sorted order).  Python compares strings by code point,
  modelled by the boolean lexicographic order `strLtB` on `Char` lists.
* Fallible operations (SQLite queries, sink writes) are modelled with
  `Except` / boolean failure oracles.
-/

/- JSON values.  Objects are ordered association lists (Python dicts
preserve insertion order); mutual inductive so that all recursion on it
is structural (kernel-reducible). -/
mutual
inductive Json where
  | null : Json
  | bool (b : Bool) : Json
  | num (n : Int) : Json
  | str (s : String) : Json
  | arr (xs : JsonList) : Json
  | obj (kvs : JsonObj) : Json
inductive JsonList where
  | nil : JsonList
  | cons (x : Json) (xs : JsonList) : JsonList
inductive JsonObj where
  | nil : JsonObj
  | cons (k : String) (v : Json) (kvs : JsonObj) : JsonObj
end

/-- Code-point lexicographic strict order on character lists: this is how
Python compares strings (and hence how `sort_keys=True` orders dict keys). -/
def listLtB : List Char → List Char → Bool
  | [], [] => false
  | [], _ :: _ => true
  | _ :: _, [] => false
  | a :: as, b :: bs => if a < b then true else if b < a then false else listLtB as bs

/-- Python string `<`. -/
def strLtB (a b : String) : Bool := listLtB a.data b.data

/-- Python string `<=` (total order, so `a <= b` iff `not (b < a)`). -/
def strLeB (a b : String) : Bool := !(strLtB b a)

/-- Minimal model of Python's JSON string escaping (the claims never
exercise escape sequences; quotes, backslashes and newlines are the
representative cases). -/
def escChar (c : Char) : String :=
  if c = '"' then "\\\"" else if c = '\\' then "\\\\"
  else if c = '\n' then "\\n" else String.singleton c

/-- A JSON string literal: quoted, escaped. -/
def jstr (s : String) : String :=
  "\"" ++ String.join (s.toList.map escChar) ++ "\""

/-- Comma-style joining, as Python's default item separator produces. -/
def joinSep (sep : String) : List String → String
  | [] => ""
  | [x] => x
  | x :: xs => x ++ sep ++ joinSep sep xs

/- Model of `json.dumps(data)` (no sort_keys): serialize a payload with
each mapping in insertion order.  Default Python separators are
`", "` and `": "`. -/
mutual
def serialize : Json → String
  | .null => "null"
  | .bool true => "true"
  | .bool false => "false"
  | .num n => toString n
  | .str s => jstr s
  | .arr xs => "[" ++ joinSep ", " (serializeList xs) ++ "]"
  | .obj kvs => "\x7b" ++ joinSep ", " (serializeObj kvs) ++ "\x7d"
def serializeList : JsonList → List String
  | .nil => []
  | .cons x xs => serialize x :: serializeList xs
def serializeObj : JsonObj → List String
  | .nil => []
  | .cons k v kvs => (jstr k ++ ": " ++ serialize v) :: serializeObj kvs
end

/-- Key order on rendered object entries (compare first components with
Python string order). -/
def keyLe (a b : String × String) : Prop := strLeB a.1 b.1 = true

/-- Strict key order on rendered object entries. -/
def keyLt (a b : String × String) : Prop := strLtB a.1 b.1 = true

instance : DecidableRel keyLe := fun a b =>
  inferInstanceAs (Decidable (strLeB a.1 b.1 = true))

/-- Sorting of rendered object entries by key, Python code-point order.
`List.insertionSort` is stable, like Python's `sorted`. -/
def sortPairs (l : List (String × String)) : List (String × String) :=
  List.insertionSort keyLe l

/-- Render one already-serialized object entry. -/
def renderPair (p : String × String) : String := jstr p.1 ++ ": " ++ p.2

/- Model of `json.dumps(data, sort_keys=True)`: like `serialize`, but
every mapping is rendered with its entries sorted by key. -/
mutual
def dumps : Json → String
  | .null => "null"
  | .bool true => "true"
  | .bool false => "false"
  | .num n => toString n
  | .str s => jstr s
  | .arr xs => "[" ++ joinSep ", " (dumpsList xs) ++ "]"
  | .obj kvs => "\x7b" ++ joinSep ", " ((sortPairs (dumpsObj kvs)).map renderPair) ++ "\x7d"
def dumpsList : JsonList → List String
  | .nil => []
  | .cons x xs => dumps x :: dumpsList xs
def dumpsObj : JsonObj → List (String × String)
  | .nil => []
  | .cons k v kvs => (k, dumps v) :: dumpsObj kvs
end

/-- The keys of an object, in insertion order. -/
def keysO : JsonObj → List String
  | .nil => []
  | .cons k _ kvs => k :: keysO kvs

/-- Boolean key-distinctness. -/
def nodupB : List String → Bool
  | [] => true
  | x :: xs => !(xs.contains x) && nodupB xs

/- Well-formedness of a payload as produced by Python: every mapping has
pairwise-distinct keys (a `dict` cannot hold duplicates). -/
mutual
def wfB : Json → Bool
  | .null => true
  | .bool _ => true
  | .num _ => true
  | .str _ => true
  | .arr xs => wfL xs
  | .obj kvs => nodupB (keysO kvs) && wfO kvs
def wfL : JsonList → Bool
  | .nil => true
  | .cons x xs => wfB x && wfL xs
def wfO : JsonObj → Bool
  | .nil => true
  | .cons _ v kvs => wfB v && wfO kvs
end

/-- Remove the first entry with key `k` from an object, returning its
value and the remaining entries. -/
def extractKey (k : String) : JsonObj → Option (Json × JsonObj)
  | .nil => none
  | .cons k2 v kvs =>
    if k2 = k then some (v, kvs)
    else match extractKey k kvs with
      | none => none
      | some (w, rest) => some (w, .cons k2 v rest)

/- Deep equality up to re-ordering of mapping entries: scalars must be
equal, arrays pointwise related, and each object is a permutation of the
other with related values at equal keys (first-match extraction). -/
mutual
def keyPermB : Json → Json → Bool
  | .null, .null => true
  | .bool a, .bool b => a = b
  | .num a, .num b => a = b
  | .str a, .str b => a = b
  | .arr xs, .arr ys => keyPermList xs ys
  | .obj kvs, .obj fin => keyPermObj kvs fin
  | _, _ => false
def keyPermList : JsonList → JsonList → Bool
  | .nil, .nil => true
  | .cons x xs, .cons y ys => keyPermB x y && keyPermList xs ys
  | _, _ => false
def keyPermObj : JsonObj → JsonObj → Bool
  | .nil, .nil => true
  | .nil, .cons _ _ _ => false
  | .cons k v kvs, fin =>
    match extractKey k fin with
    | none => false
    | some (w, fin2) => keyPermB v w && keyPermObj kvs fin2
end

-- ───────────────────────── change detector (DataStreamer._data_changed) ─────

/-- Model of `hashlib.md5(s.encode()).hexdigest()`: a fixed deterministic
function of its input string.  The claims depend only on digests of equal
strings being equal and on comparison against the absent-digest case, so
the digest is modelled as the identity function. -/
def md5Hex (s : String) : String := s

/-- Python dict assignment `m[k] = v`: replace in place if present,
append otherwise. -/
def hashUpdate (k v : String) : List (String × String) → List (String × String)
  | [] => [(k, v)]
  | (k2, w) :: rest => if k2 = k then (k, v) :: rest else (k2, w) :: hashUpdate k v rest

/-- Model of `DataStreamer._data_changed` (ccc-api-server.py lines 260-266):
digest of `json.dumps(data, sort_keys=True)`; returns true and stores the
digest iff it differs from the stored one (or none is stored). -/
def dataChanged (key : String) (data : Json) (lastHash : List (String × String)) :
    Bool × List (String × String) :=
  let h := md5Hex (dumps data)
  if lastHash.lookup key = some h then (false, lastHash)
  else (true, hashUpdate key h lastHash)

-- ───────────────────────── order theory for code-point key sorting ──────────

theorem listLtB_asymm : ∀ a b : List Char, listLtB a b = true → listLtB b a = false
  | [], [], h => by simp [listLtB] at h
  | [], _ :: _, _ => by simp [listLtB]
  | _ :: _, [], h => by simp [listLtB] at h
  | a :: as, b :: bs, h => by
      simp only [listLtB] at h ⊢
      rcases lt_trichotomy a b with hab | hab | hab
      · simp [hab, lt_asymm hab]
      · subst hab; simp only [lt_irrefl, if_false] at h ⊢
        exact listLtB_asymm as bs h
      · simp [hab, lt_asymm hab] at h

theorem listLtB_trans : ∀ a b c : List Char,
    listLtB a b = true → listLtB b c = true → listLtB a c = true
  | [], [], _, h, _ => by simp [listLtB] at h
  | [], _ :: _, [], _, h2 => by simp [listLtB] at h2
  | [], _ :: _, _ :: _, _, _ => by simp [listLtB]
  | _ :: _, [], _, h, _ => by simp [listLtB] at h
  | _ :: _, _ :: _, [], _, h2 => by simp [listLtB] at h2
  | a :: as, b :: bs, c :: cs, h, h2 => by
      simp only [listLtB] at h h2 ⊢
      rcases lt_trichotomy a b with hab | hab | hab
      · rcases lt_trichotomy b c with hbc | hbc | hbc
        · simp [lt_trans hab hbc]
        · subst hbc; simp [hab]
        · simp [hbc, lt_asymm hbc] at h2
      · subst hab
        rcases lt_trichotomy a c with hac | hac | hac
        · simp [hac]
        · subst hac; simp only [lt_irrefl, if_false] at h h2 ⊢
          exact listLtB_trans as bs cs h h2
        · simp [hac, lt_asymm hac] at h2
      · simp [hab, lt_asymm hab] at h

theorem listLtB_conn : ∀ a b : List Char,
    listLtB a b = false → listLtB b a = false → a = b
  | [], [], _, _ => rfl
  | [], _ :: _, h, _ => by simp [listLtB] at h
  | _ :: _, [], _, h2 => by simp [listLtB] at h2
  | a :: as, b :: bs, h, h2 => by
      simp only [listLtB] at h h2
      rcases lt_trichotomy a b with hab | hab | hab
      · simp [hab] at h
      · subst hab
        simp only [lt_irrefl, if_false] at h h2
        rw [listLtB_conn as bs h h2]
      · simp [hab, lt_asymm hab] at h2

theorem strLtB_asymm {a b : String} (h : strLtB a b = true) : strLtB b a = false :=
  listLtB_asymm _ _ h

theorem strLtB_trans {a b c : String} (h : strLtB a b = true) (h2 : strLtB b c = true) :
    strLtB a c = true :=
  listLtB_trans _ _ _ h h2

theorem strLtB_conn {a b : String} (h : strLtB a b = false) (h2 : strLtB b a = false) :
    a = b := by
  have hd : a.data = b.data := listLtB_conn _ _ h h2
  cases a
  cases b
  exact congrArg String.mk hd

instance : IsTotal (String × String) keyLe := by
  constructor
  intro a b
  by_cases h : strLtB b.1 a.1 = true
  · right; simpa [keyLe, strLeB] using strLtB_asymm h
  · left; simp only [keyLe, strLeB, Bool.not_eq_true] at h ⊢; simp [h]

instance : IsTrans (String × String) keyLe := by
  constructor
  intro a b c hab hbc
  simp only [keyLe, strLeB, Bool.not_eq_true'] at hab hbc ⊢
  by_contra hca
  rw [Bool.not_eq_false] at hca
  rcases hlt2 : strLtB b.1 c.1 with _ | _
  · have hbceq : b.1 = c.1 := strLtB_conn hlt2 hbc
    rw [hbceq, hca] at hab
    exact Bool.noConfusion hab
  · have : strLtB b.1 a.1 = true := strLtB_trans hlt2 hca
    rw [this] at hab
    exact Bool.noConfusion hab

instance : IsAntisymm (String × String) keyLt :=
  ⟨fun _ _ h h2 => absurd h2 (by simp [keyLt, strLtB_asymm h])⟩

theorem sortPairs_sorted (l : List (String × String)) : List.Sorted keyLe (sortPairs l) :=
  List.sorted_insertionSort keyLe l

theorem sortPairs_perm (l : List (String × String)) : (sortPairs l).Perm l :=
  List.perm_insertionSort keyLe l

theorem keyLt_of_keyLe_ne {a b : String × String} (h : keyLe a b) (hne : a.1 ≠ b.1) :
    keyLt a b := by
  simp only [keyLe, strLeB, Bool.not_eq_true'] at h
  simp only [keyLt]
  by_contra hab
  rw [Bool.not_eq_true] at hab
  exact hne (strLtB_conn hab h)

theorem sorted_keyLt {l : List (String × String)} (hs : List.Sorted keyLe l)
    (hn : (l.map Prod.fst).Nodup) : List.Sorted keyLt l := by
  have hne : l.Pairwise (fun a b => a.1 ≠ b.1) := List.pairwise_map.mp hn
  exact (hs.and hne).imp fun h => keyLt_of_keyLe_ne h.1 h.2

theorem sortPairs_eq_of_perm {l₁ l₂ : List (String × String)} (hp : l₁.Perm l₂)
    (hn : (l₁.map Prod.fst).Nodup) : sortPairs l₁ = sortPairs l₂ := by
  have hn₂ : (l₂.map Prod.fst).Nodup := ((hp.map Prod.fst).nodup_iff).mp hn
  have hs₁ : ((sortPairs l₁).map Prod.fst).Nodup :=
    (((sortPairs_perm l₁).map Prod.fst).nodup_iff).mpr hn
  have hs₂ : ((sortPairs l₂).map Prod.fst).Nodup :=
    (((sortPairs_perm l₂).map Prod.fst).nodup_iff).mpr hn₂
  exact List.eq_of_perm_of_sorted
    (((sortPairs_perm l₁).trans hp).trans (sortPairs_perm l₂).symm)
    (sorted_keyLt (sortPairs_sorted l₁) hs₁)
    (sorted_keyLt (sortPairs_sorted l₂) hs₂)

theorem nodupB_iff : ∀ l : List String, nodupB l = true ↔ l.Nodup
  | [] => by simp [nodupB]
  | x :: xs => by
      simp [nodupB, List.nodup_cons, nodupB_iff xs, List.contains]

theorem dumpsObj_keys : ∀ kvs : JsonObj, (dumpsObj kvs).map Prod.fst = keysO kvs
  | .nil => rfl
  | .cons k v kvs => by simp [dumpsObj, keysO, dumpsObj_keys kvs]

theorem extractKey_dumpsObj : ∀ {fin : JsonObj} {k : String} {w : Json} {fin2 : JsonObj},
    extractKey k fin = some (w, fin2) →
    (dumpsObj fin).Perm ((k, dumps w) :: dumpsObj fin2)
  | .nil, k, w, fin2, h => by simp [extractKey] at h
  | .cons k2 v rest, k, w, fin2, h => by
      simp only [extractKey] at h
      by_cases hk : k2 = k
      · rw [if_pos hk] at h
        obtain ⟨hv, hr⟩ : v = w ∧ rest = fin2 := by
          constructor <;> [exact congrArg (·.1) (Option.some.inj h); exact congrArg (·.2) (Option.some.inj h)]
        subst hv; subst hr; subst hk
        exact List.Perm.refl _
      · rw [if_neg hk] at h
        rcases hrec : extractKey k rest with _ | ⟨w2, rest2⟩
        · rw [hrec] at h; simp at h
        · rw [hrec] at h
          obtain ⟨hw, hf⟩ : w2 = w ∧ JsonObj.cons k2 v rest2 = fin2 := by
            constructor <;> [exact congrArg (·.1) (Option.some.inj h); exact congrArg (·.2) (Option.some.inj h)]
          subst hw; subst hf
          exact ((extractKey_dumpsObj hrec).cons (k2, dumps v)).trans
            (List.Perm.swap (k, dumps w2) (k2, dumps v) (dumpsObj rest2))

theorem extractKey_wf : ∀ {fin : JsonObj} {k : String} {w : Json} {fin2 : JsonObj},
    extractKey k fin = some (w, fin2) → wfO fin = true → wfB w = true ∧ wfO fin2 = true
  | .nil, k, w, fin2, h, _ => by simp [extractKey] at h
  | .cons k2 v rest, k, w, fin2, h, hw => by
      simp only [wfO, Bool.and_eq_true] at hw
      simp only [extractKey] at h
      by_cases hk : k2 = k
      · rw [if_pos hk] at h
        obtain ⟨hv, hr⟩ : v = w ∧ rest = fin2 := by
          constructor <;> [exact congrArg (·.1) (Option.some.inj h); exact congrArg (·.2) (Option.some.inj h)]
        subst hv; subst hr
        exact hw
      · rw [if_neg hk] at h
        rcases hrec : extractKey k rest with _ | ⟨w2, rest2⟩
        · rw [hrec] at h; simp at h
        · rw [hrec] at h
          obtain ⟨hw2, hf⟩ : w2 = w ∧ JsonObj.cons k2 v rest2 = fin2 := by
            constructor <;> [exact congrArg (·.1) (Option.some.inj h); exact congrArg (·.2) (Option.some.inj h)]
          subst hw2; subst hf
          have := extractKey_wf hrec hw.2
          exact ⟨this.1, by simp [wfO, hw.1, this.2]⟩

mutual
theorem dumpsPermJ : ∀ (x y : Json), wfB x = true → wfB y = true →
    keyPermB x y = true → dumps x = dumps y
  | .null, y, _, _, hp => by cases y <;> simp_all [keyPermB]
  | .bool a, y, _, _, hp => by cases y <;> simp_all [keyPermB]
  | .num a, y, _, _, hp => by cases y <;> simp_all [keyPermB]
  | .str a, y, _, _, hp => by cases y <;> simp_all [keyPermB]
  | .arr xs, y, hwx, hwy, hp => by
      cases y
      case arr ys =>
        have h := dumpsPermL xs ys (by simpa [wfB] using hwx) (by simpa [wfB] using hwy)
          (by simpa [keyPermB] using hp)
        simp [dumps, h]
      all_goals simp_all [keyPermB]
  | .obj kvs, y, hwx, hwy, hp => by
      cases y
      case obj fin =>
        have hw1 : nodupB (keysO kvs) = true ∧ wfO kvs = true := by
          simpa [wfB, Bool.and_eq_true] using hwx
        have hw2 : nodupB (keysO fin) = true ∧ wfO fin = true := by
          simpa [wfB, Bool.and_eq_true] using hwy
        have hperm := dumpsPermO kvs fin hw1.2 hw2.2 (by simpa [keyPermB] using hp)
        have hnd : ((dumpsObj kvs).map Prod.fst).Nodup := by
          rw [dumpsObj_keys]; exact (nodupB_iff _).mp hw1.1
        have hsort : sortPairs (dumpsObj kvs) = sortPairs (dumpsObj fin) :=
          sortPairs_eq_of_perm hperm hnd
        simp [dumps, hsort]
      all_goals simp_all [keyPermB]
theorem dumpsPermL : ∀ (xs ys : JsonList), wfL xs = true → wfL ys = true →
    keyPermList xs ys = true → dumpsList xs = dumpsList ys
  | .nil, ys, _, _, hp => by cases ys <;> simp_all [keyPermList]
  | .cons x xs, ys, hw1, hw2, hp => by
      cases ys
      case nil => simp [keyPermList] at hp
      case cons y ys2 =>
        simp only [keyPermList, Bool.and_eq_true] at hp
        simp only [wfL, Bool.and_eq_true] at hw1 hw2
        have h1 := dumpsPermJ x y hw1.1 hw2.1 hp.1
        have h2 := dumpsPermL xs ys2 hw1.2 hw2.2 hp.2
        simp [dumpsList, h1, h2]
theorem dumpsPermO : ∀ (kvs fin : JsonObj), wfO kvs = true → wfO fin = true →
    keyPermObj kvs fin = true → (dumpsObj kvs).Perm (dumpsObj fin)
  | .nil, fin, _, _, hp => by
      cases fin
      case nil => exact List.Perm.refl _
      case cons k v kvs => simp [keyPermObj] at hp
  | .cons k v kvs, fin, hw1, hw2, hp => by
      simp only [keyPermObj] at hp
      rcases hext : extractKey k fin with _ | ⟨w, fin2⟩
      · rw [hext] at hp; simp at hp
      · rw [hext] at hp
        simp only [Bool.and_eq_true] at hp
        simp only [wfO, Bool.and_eq_true] at hw1
        have hwf := extractKey_wf hext hw2
        have h1 := dumpsPermJ v w hw1.1 hwf.1 hp.1
        have h2 := dumpsPermO kvs fin2 hw1.2 hwf.2 hp.2
        have step : ((k, dumps v) :: dumpsObj kvs).Perm ((k, dumps w) :: dumpsObj fin2) := by
          rw [h1]; exact h2.cons _
        exact step.trans (extractKey_dumpsObj hext).symm
end

theorem lookup_hashUpdate : ∀ (m : List (String × String)) (k v : String),
    (hashUpdate k v m).lookup k = some v
  | [], k, v => by simp [hashUpdate, List.lookup]
  | (k2, w) :: rest, k, v => by
      by_cases hk : k2 = k
      · simp [hashUpdate, hk, List.lookup]
      · have hb : (k == k2) = false := by simp [Ne.symm hk]
        simp [hashUpdate, hk, List.lookup, hb, lookup_hashUpdate rest k v]

/-- Example payload with mapping keys in insertion order a, b. -/
def exPayloadA : Json := .obj (.cons "a" (.num 1) (.cons "b" (.num 2) .nil))

/-- The same payload with its mapping keys in the other order. -/
def exPayloadB : Json := .obj (.cons "b" (.num 2) (.cons "a" (.num 1) .nil))

/-- C3: the change detector called as changed(n, X) then changed(n, X)
returns true then false, and called as changed(n, X) then changed(n, X')
where X' is deep-equal to X with its mapping keys reordered also returns
true then false — the digest canonicalizes key order (sort_keys=True)
before hashing.  The hypothesis says no digest equal to X's is stored
under n (in particular, nothing is stored yet). -/
theorem changeDetector_true_then_false (n : String) (X Y : Json)
    (st : List (String × String))
    (h0 : st.lookup n ≠ some (md5Hex (dumps X)))
    (hwX : wfB X = true) (hwY : wfB Y = true) (hXY : keyPermB X Y = true) :
    (dataChanged n X st).1 = true ∧
    (dataChanged n X (dataChanged n X st).2).1 = false ∧
    (dataChanged n Y (dataChanged n X st).2).1 = false := by
  have hd : dumps X = dumps Y := dumpsPermJ X Y hwX hwY hXY
  have hst2 : (dataChanged n X st).2 = hashUpdate n (md5Hex (dumps X)) st := by
    simp [dataChanged, h0]
  refine ⟨by simp [dataChanged, h0], ?_, ?_⟩
  · rw [hst2]
    simp [dataChanged, lookup_hashUpdate]
  · rw [hst2]
    simp only [dataChanged, md5Hex, ← hd, lookup_hashUpdate, if_true]

/-- Witness for C3 at a concrete input: fresh detector state, payload
with keys a, b and its reordering with keys b, a. -/
theorem changeDetector_true_then_false_witness :
    (List.lookup "stats" ([] : List (String × String)) ≠ some (md5Hex (dumps exPayloadA))) ∧
    ((dataChanged "stats" exPayloadA []).1 = true ∧
      (dataChanged "stats" exPayloadA (dataChanged "stats" exPayloadA []).2).1 = false ∧
      (dataChanged "stats" exPayloadB (dataChanged "stats" exPayloadA []).2).1 = false) :=
  ⟨by decide, changeDetector_true_then_false "stats" exPayloadA exPayloadB []
    (by decide) (by decide) (by decide) (by decide)⟩

-- ───────────────────────── streak segmenter (backfill-autonomy-streaks.py) ──

/-- A tool event row: `(timestamp, tool_name, context)`, timestamps in
unix seconds (Python floats, modelled as ℚ), context nullable. -/
structure Event where
  ts : ℚ
  tool : String
  ctx : Option String
deriving DecidableEq, Repr

/-- Python 3 `round` to an integer on an exact rational: round half to
even (banker's rounding), idealized over ℚ. -/
def pyRound0 (q : ℚ) : ℤ :=
  let f : ℤ := Int.floor q
  let r : ℚ := q - f
  if r < 1/2 then f
  else if 1/2 < r then f + 1
  else if f % 2 = 0 then f else f + 1

/-- Python `round(q, 2)`. -/
def round2 (q : ℚ) : ℚ := (pyRound0 (q * 100) : ℚ) / 100

/-- First-occurrence deduplication, matching Python dict/Counter key
insertion order. -/
def firstUniques (l : List String) : List String :=
  l.foldl (fun acc x => if x ∈ acc then acc else acc ++ [x]) []

/-- Stable descending sort by count, as Python's
`sorted(..., key=count, reverse=True)` inside `Counter.most_common`. -/
def sortByCountDesc (l : List (String × ℕ)) : List (String × ℕ) :=
  List.insertionSort (fun a b => b.2 ≤ a.2) l

/-- Model of `Counter(l).most_common(10)`: pairs (element, count) in
first-insertion order, stably sorted by count descending, first 10. -/
def mostCommon (l : List String) : List (String × ℕ) :=
  (sortByCountDesc ((firstUniques l).map (fun t => (t, l.count t)))).take 10

/-- Python truthiness filter on a nullable context string:
`[ctx] if ctx else []` (None and the empty string are falsy). -/
def ctxKeep : Option String → List String
  | none => []
  | some s => if s = "" then [] else [s]

/-- A computed autonomy streak, fields as in the `streaks.append({...})`
dict of compute_streaks (lines 75-83 / 98-106). -/
structure Streak where
  start_ts : ℚ
  end_ts : ℚ
  duration_seconds : ℚ
  tool_count : ℕ
  avg_gap_seconds : ℚ
  projects : List String
  top_tools : List (String × ℕ)
deriving DecidableEq, Repr

/-- Build the streak dict from the run state, exactly as the source does:
duration is `run_end - run_start`, `avg_gap_seconds` is
`round(duration / max(len(run_tools) - 1, 1), 2)`. -/
def mkStreak (rs re : ℚ) (tools ctxs : List String) : Streak :=
  { start_ts := rs
    end_ts := re
    duration_seconds := re - rs
    tool_count := tools.length
    avg_gap_seconds := round2 ((re - rs) / (max (tools.length - 1) 1 : ℕ))
    projects := (mostCommon ctxs).map Prod.fst
    top_tools := mostCommon tools }

/-- Close the current run: emit its streak iff `duration >= min_duration`. -/
def finishRun (minD rs re : ℚ) (tools ctxs : List String) : List Streak :=
  if minD ≤ re - rs then [mkStreak rs re tools ctxs] else []

/-- The event loop of compute_streaks (lines 52-106), with the run state
`(run_start, run_end, run_tools, run_contexts)` as arguments and closed
runs emitted in encounter order (the final open run last). -/
def go (gapT minD : ℚ) : List Event → ℚ → ℚ → List String → List String → List Streak
  | [], rs, re, tools, ctxs => finishRun minD rs re tools ctxs
  | e :: rest, rs, re, tools, ctxs =>
    if 0 ≤ e.ts - re ∧ e.ts - re ≤ gapT then
      go gapT minD rest rs e.ts (tools ++ [e.tool]) (ctxs ++ ctxKeep e.ctx)
    else
      finishRun minD rs re tools ctxs ++ go gapT minD rest e.ts e.ts [e.tool] (ctxKeep e.ctx)

/-- Model of compute_streaks' segmentation pass over the timestamp-ordered
event rows (session-id enrichment and persistence are modelled separately). -/
def computeStreaks (rows : List Event) (gapT minD : ℚ) : List Streak :=
  match rows with
  | [] => []
  | e :: rest => go gapT minD rest e.ts e.ts [e.tool] (ctxKeep e.ctx)

-- ───────────────────────── specification-side run decomposition ─────────────

/-- Modelled from the spec: two consecutive events continue a run iff
their gap lies in `[0, gap_threshold]`. -/
def gapOk (gapT : ℚ) (a b : Event) : Prop := 0 ≤ b.ts - a.ts ∧ b.ts - a.ts ≤ gapT

/-- Modelled from the spec: split the event stream into maximal runs, the
current run carried as an explicit chunk (`re` = timestamp of its last
event). -/
def runsGo (gapT : ℚ) : List Event → ℚ → List Event → List (List Event)
  | [], _, cur => [cur]
  | e :: rest, re, cur =>
    if 0 ≤ e.ts - re ∧ e.ts - re ≤ gapT then runsGo gapT rest e.ts (cur ++ [e])
    else cur :: runsGo gapT rest e.ts [e]

/-- Modelled from the spec: the maximal-run decomposition of an ordered
event sequence under a gap threshold. -/
def splitRuns (gapT : ℚ) : List Event → List (List Event)
  | [] => []
  | e :: rest => runsGo gapT rest e.ts [e]

/-- Timestamp of the first event of a chunk (0 for the empty chunk). -/
def chunkStart (c : List Event) : ℚ :=
  match c.head? with
  | none => 0
  | some e => e.ts

/-- Timestamp of the last event of a chunk (0 for the empty chunk). -/
def chunkEnd (c : List Event) : ℚ :=
  match c.getLast? with
  | none => 0
  | some e => e.ts

/-- Duration of a chunk. -/
def chunkDuration (c : List Event) : ℚ := chunkEnd c - chunkStart c

/-- The streak a qualifying run is emitted as. -/
def chunkStreak (c : List Event) : Streak :=
  mkStreak (chunkStart c) (chunkEnd c) (c.map (fun e => e.tool))
    ((c.map (fun e => ctxKeep e.ctx)).flatten)

theorem chunkStart_cons (e : Event) (c : List Event) : chunkStart (e :: c) = e.ts := rfl

theorem chunkEnd_concat (c : List Event) (e : Event) : chunkEnd (c ++ [e]) = e.ts := by
  simp [chunkEnd]

theorem chunkStart_concat {c : List Event} (hc : c ≠ []) (e : Event) :
    chunkStart (c ++ [e]) = chunkStart c := by
  cases c with
  | nil => exact absurd rfl hc
  | cons x rest => rfl

theorem go_eq_runsGo (gapT minD : ℚ) :
    ∀ (rest c : List Event), c ≠ [] →
      go gapT minD rest (chunkStart c) (chunkEnd c) (c.map (fun e => e.tool))
          ((c.map (fun e => ctxKeep e.ctx)).flatten)
        = ((runsGo gapT rest (chunkEnd c) c).filter
            (fun ch => minD ≤ chunkDuration ch)).map chunkStreak := by
  intro rest
  induction rest with
  | nil =>
    intro c hc
    by_cases h : minD ≤ chunkEnd c - chunkStart c
    · simp [go, runsGo, finishRun, h, List.filter_cons, chunkDuration, chunkStreak]
    · simp [go, runsGo, finishRun, h, List.filter_cons, chunkDuration]
  | cons e rest ih =>
    intro c hc
    by_cases hg : 0 ≤ e.ts - chunkEnd c ∧ e.ts - chunkEnd c ≤ gapT
    · simp only [go, runsGo, if_pos hg]
      have h1 : chunkStart (c ++ [e]) = chunkStart c := chunkStart_concat hc e
      have h2 : chunkEnd (c ++ [e]) = e.ts := chunkEnd_concat c e
      have h3 := ih (c ++ [e]) (by simp)
      rw [h1, h2] at h3
      simpa [List.map_append, List.flatten_append] using h3
    · simp only [go, runsGo, if_neg hg]
      have hs1 : chunkStart [e] = e.ts := rfl
      have hs2 : chunkEnd [e] = e.ts := rfl
      have h3 := ih [e] (by simp)
      rw [hs1, hs2] at h3
      simp only [List.map_cons, List.map_nil, List.flatten_cons, List.flatten_nil,
        List.append_nil] at h3
      by_cases hd : minD ≤ chunkDuration c
      · have hfin : finishRun minD (chunkStart c) (chunkEnd c)
            (c.map (fun e => e.tool)) ((c.map (fun e => ctxKeep e.ctx)).flatten)
            = [chunkStreak c] := by
          rw [finishRun, if_pos (show minD ≤ chunkEnd c - chunkStart c from hd)]
          rfl
        simp [List.filter_cons, hd, hfin, h3]
      · have hfin : finishRun minD (chunkStart c) (chunkEnd c)
            (c.map (fun e => e.tool)) ((c.map (fun e => ctxKeep e.ctx)).flatten)
            = [] := by
          rw [finishRun, if_neg (show ¬ minD ≤ chunkEnd c - chunkStart c from hd)]
        simp [List.filter_cons, hd, hfin, h3]

/-- Two adjacent runs fail the continuation test at their boundary. -/
def runBreak (gapT : ℚ) (x y : List Event) : Prop :=
  ¬ (0 ≤ chunkStart y - chunkEnd x ∧ chunkStart y - chunkEnd x ≤ gapT)

/-- Non-overlap of two runs/streaks in time. -/
def chunksApart (x y : List Event) : Prop := chunkEnd x < chunkStart y

theorem chunkEnd_getLast {c : List Event} {x : Event} (h : c.getLast? = some x) :
    chunkEnd c = x.ts := by
  simp [chunkEnd, h]

theorem runsGo_flatten (gapT : ℚ) : ∀ (rest : List Event) (re : ℚ) (c : List Event),
    (runsGo gapT rest re c).flatten = c ++ rest
  | [], re, c => by simp [runsGo]
  | e :: rest, re, c => by
    by_cases hg : 0 ≤ e.ts - re ∧ e.ts - re ≤ gapT
    · rw [runsGo, if_pos hg, runsGo_flatten gapT rest e.ts (c ++ [e])]
      simp
    · rw [runsGo, if_neg hg]
      simp [runsGo_flatten gapT rest e.ts [e]]

theorem runsGo_ne_nil (gapT : ℚ) : ∀ (rest : List Event) (re : ℚ) (c : List Event),
    c ≠ [] → ∀ ch ∈ runsGo gapT rest re c, ch ≠ []
  | [], re, c, hc => by simpa [runsGo] using hc
  | e :: rest, re, c, hc => by
    by_cases hg : 0 ≤ e.ts - re ∧ e.ts - re ≤ gapT
    · rw [runsGo, if_pos hg]
      exact runsGo_ne_nil gapT rest e.ts (c ++ [e]) (by simp)
    · rw [runsGo, if_neg hg]
      intro ch hch
      rcases List.mem_cons.mp hch with h | h
      · exact h ▸ hc
      · exact runsGo_ne_nil gapT rest e.ts [e] (by simp) ch h

theorem runsGo_chain (gapT : ℚ) : ∀ (rest : List Event) (re : ℚ) (c : List Event),
    chunkEnd c = re → List.Chain' (gapOk gapT) c →
    ∀ ch ∈ runsGo gapT rest re c, List.Chain' (gapOk gapT) ch
  | [], re, c, hce, hcc => by
    intro ch hch
    rw [runsGo] at hch
    have : ch = c := by simpa using hch
    exact this ▸ hcc

  | e :: rest, re, c, hce, hcc => by
    by_cases hg : 0 ≤ e.ts - re ∧ e.ts - re ≤ gapT
    · rw [runsGo, if_pos hg]
      refine runsGo_chain gapT rest e.ts (c ++ [e]) (chunkEnd_concat c e) ?_
      rw [List.chain'_append]
      refine ⟨hcc, List.chain'_singleton e, ?_⟩
      intro x hx y hy
      have hxe : x.ts = chunkEnd c := (chunkEnd_getLast hx).symm
      have hye : e = y := by simpa using hy
      subst hye
      rw [hce] at hxe
      exact ⟨by rw [hxe]; exact hg.1, by rw [hxe]; exact hg.2⟩
    · rw [runsGo, if_neg hg]
      intro ch hch
      rcases List.mem_cons.mp hch with h | h
      · exact h ▸ hcc
      · exact runsGo_chain gapT rest e.ts [e] rfl (List.chain'_singleton e) ch h

theorem runsGo_head_start (gapT : ℚ) : ∀ (rest : List Event) (re : ℚ) (c : List Event),
    c ≠ [] → ∀ hd ∈ (runsGo gapT rest re c).head?, chunkStart hd = chunkStart c
  | [], re, c, hc => by
    intro hd hhd
    rw [runsGo] at hhd
    simp only [List.head?_cons, Option.mem_def, Option.some.injEq] at hhd
    rw [← hhd]
  | e :: rest, re, c, hc => by
    by_cases hg : 0 ≤ e.ts - re ∧ e.ts - re ≤ gapT
    · rw [runsGo, if_pos hg]
      intro hd hhd
      rw [runsGo_head_start gapT rest e.ts (c ++ [e]) (by simp) hd hhd]
      exact chunkStart_concat hc e
    · rw [runsGo, if_neg hg]
      intro hd hhd
      simp only [List.head?_cons, Option.mem_def, Option.some.injEq] at hhd
      rw [← hhd]

theorem runsGo_boundary (gapT : ℚ) : ∀ (rest : List Event) (re : ℚ) (c : List Event),
    c ≠ [] → chunkEnd c = re → List.Chain' (runBreak gapT) (runsGo gapT rest re c)
  | [], re, c, hc, hce => by rw [runsGo]; exact List.chain'_singleton c
  | e :: rest, re, c, hc, hce => by
    by_cases hg : 0 ≤ e.ts - re ∧ e.ts - re ≤ gapT
    · rw [runsGo, if_pos hg]
      exact runsGo_boundary gapT rest e.ts (c ++ [e]) (by simp) (chunkEnd_concat c e)
    · rw [runsGo, if_neg hg]
      rw [List.chain'_cons']
      refine ⟨?_, runsGo_boundary gapT rest e.ts [e] (by simp) rfl⟩
      intro hd hhd
      have hs : chunkStart hd = e.ts := by
        rw [runsGo_head_start gapT rest e.ts [e] (by simp) hd hhd]; rfl
      rw [runBreak, hs, hce]
      exact hg

theorem chunkStart_le_chunkEnd (gapT : ℚ) : ∀ c : List Event,
    List.Chain' (gapOk gapT) c → chunkStart c ≤ chunkEnd c
  | [], _ => le_refl 0
  | [e], _ => le_refl e.ts
  | e :: f :: rest, h => by
    rw [List.chain'_cons] at h
    have h1 : e.ts ≤ f.ts := by
      have := h.1.1
      simp only [gapOk] at this
      linarith [h.1.1]
    have h2 := chunkStart_le_chunkEnd gapT (f :: rest) h.2
    have h3 : chunkEnd (e :: f :: rest) = chunkEnd (f :: rest) := by
      simp [chunkEnd, List.getLast?_cons_cons]
    rw [chunkStart_cons, h3]
    exact le_trans h1 (by simpa [chunkStart_cons] using h2)

theorem runsGo_apart (gapT : ℚ) (hT : 0 < gapT) : ∀ (rest : List Event) (re : ℚ)
    (c : List Event), c ≠ [] → chunkEnd c = re →
    List.Chain' (fun a b => a.ts ≤ b.ts) rest → (∀ x ∈ rest.head?, re ≤ x.ts) →
    List.Chain' chunksApart (runsGo gapT rest re c)
  | [], re, c, hc, hce, _, _ => by rw [runsGo]; exact List.chain'_singleton c
  | e :: rest, re, c, hc, hce, hsort, hhd => by
    have hre : re ≤ e.ts := hhd e rfl
    have hsort2 := (List.chain'_cons'.mp hsort).2
    have hhd2 : ∀ x ∈ rest.head?, e.ts ≤ x.ts := (List.chain'_cons'.mp hsort).1
    by_cases hg : 0 ≤ e.ts - re ∧ e.ts - re ≤ gapT
    · rw [runsGo, if_pos hg]
      exact runsGo_apart gapT hT rest e.ts (c ++ [e]) (by simp) (chunkEnd_concat c e)
        hsort2 hhd2
    · rw [runsGo, if_neg hg]
      rw [List.chain'_cons']
      refine ⟨?_, runsGo_apart gapT hT rest e.ts [e] (by simp) rfl hsort2 hhd2⟩
      intro hd hhd3
      have hs : chunkStart hd = e.ts := by
        rw [runsGo_head_start gapT rest e.ts [e] (by simp) hd hhd3]; rfl
      have hgap : ¬ (e.ts - re ≤ gapT) := fun hle => hg ⟨by linarith, hle⟩
      rw [chunksApart, hs, hce]
      linarith [not_le.mp hgap]

theorem pairwise_of_chain_apart : ∀ l : List (List Event),
    (∀ ch ∈ l, chunkStart ch ≤ chunkEnd ch) → List.Chain' chunksApart l →
    List.Pairwise chunksApart l
  | [], _, _ => List.Pairwise.nil
  | a :: l, hb, hch => by
    rw [List.chain'_cons'] at hch
    have hp := pairwise_of_chain_apart l (fun ch hc => hb ch (List.mem_cons_of_mem a hc)) hch.2
    refine List.Pairwise.cons ?_ hp
    intro y hy
    cases l with
    | nil => simp at hy
    | cons b l2 =>
      have hab : chunksApart a b := hch.1 b rfl
      rcases List.mem_cons.mp hy with h | h
      · exact h ▸ hab
      · have hby : chunksApart b y := (List.pairwise_cons.mp hp).1 y h
        have hbb : chunkStart b ≤ chunkEnd b := hb b (List.mem_cons_of_mem a (List.mem_cons_self b l2))
        rw [chunksApart] at hab hby ⊢
        linarith

theorem computeStreaks_eq_runs (rows : List Event) (gapT minD : ℚ) :
    computeStreaks rows gapT minD
      = ((splitRuns gapT rows).filter (fun ch => minD ≤ chunkDuration ch)).map chunkStreak := by
  cases rows with
  | nil => simp [computeStreaks, splitRuns]
  | cons e rest =>
    have h := go_eq_runsGo gapT minD rest [e] (by simp)
    rw [show chunkStart [e] = e.ts from rfl, show chunkEnd [e] = e.ts from rfl] at h
    simp only [List.map_cons, List.map_nil, List.flatten_cons, List.flatten_nil,
      List.append_nil] at h
    exact h

theorem splitRuns_ne_nil (gapT : ℚ) (rows : List Event) :
    ∀ ch ∈ splitRuns gapT rows, ch ≠ [] := by
  cases rows with
  | nil => simp [splitRuns]
  | cons e rest => exact runsGo_ne_nil gapT rest e.ts [e] (by simp)

/-- C1: for every event sequence sorted ascending by timestamp, every
gap_threshold > 0 and min_duration ≥ 0, the segmenter output is exactly
one streak per maximal run with all inter-event gaps in [0, gap_threshold]
and duration ≥ min_duration: the output equals the maximal-run
decomposition filtered by duration and mapped to streak records, the
decomposition covers the input, every run is nonempty with all internal
gaps in range, adjacent runs break the continuation test at their
boundary (any gap < 0 or > gap_threshold closes the run), and no two
emitted streaks overlap in time. -/
theorem segmenter_partitions (rows : List Event) (gapT minD : ℚ)
    (hsort : List.Chain' (fun a b => a.ts ≤ b.ts) rows)
    (hT : 0 < gapT) (hm : 0 ≤ minD) :
    computeStreaks rows gapT minD
      = ((splitRuns gapT rows).filter (fun ch => minD ≤ chunkDuration ch)).map chunkStreak
    ∧ (splitRuns gapT rows).flatten = rows
    ∧ (∀ ch ∈ splitRuns gapT rows, ch ≠ [] ∧ List.Chain' (gapOk gapT) ch)
    ∧ List.Chain' (runBreak gapT) (splitRuns gapT rows)
    ∧ List.Pairwise (fun s1 s2 => s1.end_ts < s2.start_ts)
        (computeStreaks rows gapT minD) := by
  cases rows with
  | nil => simp [computeStreaks, splitRuns]
  | cons e rest =>
    have hcs := computeStreaks_eq_runs (e :: rest) gapT minD
    refine ⟨hcs, ?_, ?_, ?_, ?_⟩
    · exact runsGo_flatten gapT rest e.ts [e]
    · intro ch hch
      exact ⟨runsGo_ne_nil gapT rest e.ts [e] (by simp) ch hch,
        runsGo_chain gapT rest e.ts [e] rfl (List.chain'_singleton e) ch hch⟩
    · exact runsGo_boundary gapT rest e.ts [e] (by simp) rfl
    · have hchain := runsGo_chain gapT rest e.ts [e] rfl (List.chain'_singleton e)
      have hbounds : ∀ ch ∈ splitRuns gapT (e :: rest), chunkStart ch ≤ chunkEnd ch :=
        fun ch hc => chunkStart_le_chunkEnd gapT ch (hchain ch hc)
      have hapart := runsGo_apart gapT hT rest e.ts [e] (by simp) rfl
        (List.chain'_cons'.mp hsort).2 (List.chain'_cons'.mp hsort).1
      have hpw := pairwise_of_chain_apart _ hbounds hapart
      have hpwf : List.Pairwise chunksApart
          ((splitRuns gapT (e :: rest)).filter (fun ch => minD ≤ chunkDuration ch)) :=
        List.Pairwise.sublist (List.filter_sublist (splitRuns gapT (e :: rest))) hpw
      rw [hcs]
      exact List.pairwise_map.mpr (hpwf.imp (fun h => h))

/-- The spec's end-to-end example: events at timestamps [0, 5, 10, 50, 55]. -/
def exEvents : List Event :=
  [⟨0, "t", none⟩, ⟨5, "t", none⟩, ⟨10, "t", none⟩, ⟨50, "t", none⟩, ⟨55, "t", none⟩]

/-- Witness for C1 at the example events with gap_threshold 30,
min_duration 0. -/
theorem segmenter_partitions_witness :
    List.Chain' (fun a b => a.ts ≤ b.ts) exEvents ∧ (0:ℚ) < 30 ∧ (0:ℚ) ≤ 0 ∧
    (computeStreaks exEvents 30 0
      = ((splitRuns 30 exEvents).filter (fun ch => 0 ≤ chunkDuration ch)).map chunkStreak
    ∧ (splitRuns 30 exEvents).flatten = exEvents
    ∧ (∀ ch ∈ splitRuns 30 exEvents, ch ≠ [] ∧ List.Chain' (gapOk 30) ch)
    ∧ List.Chain' (runBreak 30) (splitRuns 30 exEvents)
    ∧ List.Pairwise (fun s1 s2 => s1.end_ts < s2.start_ts)
        (computeStreaks exEvents 30 0)) := by
  have hs : List.Chain' (fun a b => a.ts ≤ b.ts) exEvents := by
    norm_num [exEvents, List.chain'_cons, List.chain'_singleton]
  exact ⟨hs, by norm_num, by norm_num,
    segmenter_partitions exEvents 30 0 hs (by norm_num) (by norm_num)⟩

set_option maxRecDepth 8000

/-- C2: on the event sequence with timestamps [0, 5, 10, 50, 55],
gap_threshold 30 and min_duration 0 produce exactly the two streaks
(start 0, end 10, duration 10, 3 tools) and (start 50, end 55,
duration 5, 2 tools); with min_duration 60 produce zero streaks. -/
theorem segmenter_example_two_streaks :
    computeStreaks exEvents 30 0 =
      [{ start_ts := 0, end_ts := 10, duration_seconds := 10, tool_count := 3,
         avg_gap_seconds := 5, projects := [], top_tools := [("t", 3)] },
       { start_ts := 50, end_ts := 55, duration_seconds := 5, tool_count := 2,
         avg_gap_seconds := 5, projects := [], top_tools := [("t", 2)] }]
    ∧ computeStreaks exEvents 30 60 = [] := by
  constructor
  · norm_num [exEvents, computeStreaks, go, finishRun, mkStreak, mostCommon,
      sortByCountDesc, firstUniques, ctxKeep, round2, pyRound0,
      List.insertionSort, List.orderedInsert, List.count_cons]
  · norm_num [exEvents, computeStreaks, go, finishRun, mkStreak]

/-- Events at timestamps [0, 3, 7, 10]: a single run of 4 events whose
exact mean gap 10/3 does not survive the 2-decimal rounding. -/
def exEventsRound : List Event :=
  [⟨0, "t", none⟩, ⟨3, "t", none⟩, ⟨7, "t", none⟩, ⟨10, "t", none⟩]

/-- C6 counterexample: the code stores
`round(duration / max(tool_count - 1, 1), 2)`, so for the run of 4 events
over 10 seconds the stored value is 3.33, not 10/3: the stored avg_gap
does not equal duration / max(tool_count - 1, 1) exactly. -/
theorem avgGap_rounding_counterexample :
    computeStreaks exEventsRound 30 0 =
      [{ start_ts := 0, end_ts := 10, duration_seconds := 10, tool_count := 4,
         avg_gap_seconds := 333/100, projects := [], top_tools := [("t", 4)] }]
    ∧ (333/100 : ℚ) ≠ (10 : ℚ) / ((max (4 - 1) 1 : ℕ) : ℚ) := by
  constructor
  · norm_num [exEventsRound, computeStreaks, go, finishRun, mkStreak, mostCommon,
      sortByCountDesc, firstUniques, ctxKeep, round2, pyRound0,
      List.insertionSort, List.orderedInsert, List.count_cons]
  · norm_num

/-- C6 amended: for every emitted streak the stored avg_gap equals
`round(duration / max(tool_count - 1, 1), 2)` — the exact quotient rounded
to 2 decimal places — and for a single-event streak (tool_count 1,
duration 0) the stored avg_gap equals 0. -/
theorem avgGap_rounded (rows : List Event) (gapT minD : ℚ) (s : Streak)
    (hs : s ∈ computeStreaks rows gapT minD) :
    s.avg_gap_seconds = round2 (s.duration_seconds / ((max (s.tool_count - 1) 1 : ℕ) : ℚ))
    ∧ (s.tool_count = 1 → s.avg_gap_seconds = 0) := by
  rw [computeStreaks_eq_runs] at hs
  obtain ⟨ch, hchmem, rfl⟩ := List.mem_map.mp hs
  have hchmem2 : ch ∈ splitRuns gapT rows := List.mem_of_mem_filter hchmem
  have hne : ch ≠ [] := splitRuns_ne_nil gapT rows ch hchmem2
  constructor
  · simp [chunkStreak, mkStreak]
  · intro h1
    have hlen : ch.length = 1 := by simpa [chunkStreak, mkStreak] using h1
    obtain ⟨x, rfl⟩ := List.length_eq_one.mp hlen
    norm_num [chunkStreak, mkStreak, chunkStart, chunkEnd, chunkDuration,
      round2, pyRound0]

/-- The streak the 4-event example run is emitted as. -/
def exRoundStreak : Streak :=
  { start_ts := 0, end_ts := 10, duration_seconds := 10, tool_count := 4,
    avg_gap_seconds := 333/100, projects := [], top_tools := [("t", 4)] }

/-- Witness for C6-amended at the 4-event example run. -/
theorem avgGap_rounded_witness :
    exRoundStreak ∈ computeStreaks exEventsRound 30 0 ∧
    exRoundStreak.avg_gap_seconds
      = round2 (exRoundStreak.duration_seconds
          / ((max (exRoundStreak.tool_count - 1) 1 : ℕ) : ℚ)) := by
  have hmem : exRoundStreak ∈ computeStreaks exEventsRound 30 0 := by
    norm_num [exRoundStreak, exEventsRound, computeStreaks, go, finishRun, mkStreak,
      mostCommon, sortByCountDesc, firstUniques, ctxKeep, round2, pyRound0,
      List.insertionSort, List.orderedInsert, List.count_cons]
  exact ⟨hmem, (avgGap_rounded exEventsRound 30 0 _ hmem).1⟩

-- ───────────────────────── backfill job: enrichment and persistence ─────────

/-- Python `streaks.sort(key=duration, reverse=True)`: stable descending
sort by duration. -/
def sortByDurationDesc (l : List Streak) : List Streak :=
  List.insertionSort (fun a b => b.duration_seconds ≤ a.duration_seconds) l

/-- A row of the autonomy_streaks table (INSERT at lines 117-133); the
JSON-encoded list columns are kept structured. -/
structure StreakRow where
  start_ts : ℚ
  end_ts : ℚ
  duration_seconds : ℚ
  tool_count : ℕ
  avg_gap_seconds : ℚ
  projects : List String
  top_tools : List (String × ℕ)
  session_ids : List String
deriving DecidableEq, Repr

/-- The inserted row for a streak: its fields plus
`s.get("session_ids", [])`. -/
def toRow (s : Streak) (sids : List String) : StreakRow :=
  { start_ts := s.start_ts, end_ts := s.end_ts,
    duration_seconds := s.duration_seconds, tool_count := s.tool_count,
    avg_gap_seconds := s.avg_gap_seconds, projects := s.projects,
    top_tools := s.top_tools, session_ids := sids }

/-- The post-pass `for s in streaks[:50]: s["session_ids"] = get_session...`
(lines 112-113) followed by row assembly: the first `fuel` streaks are
enriched through the query (a raised exception propagates as `.error`),
the remainder keep the `.get("session_ids", [])` default. -/
def enrichTop (query : ℚ → Except String (List String)) :
    List Streak → ℕ → Except String (List StreakRow)
  | [], _ => .ok []
  | s :: rest, 0 => .ok ((s :: rest).map (fun t => toRow t []))
  | s :: rest, Nat.succ k =>
    match query s.start_ts with
    | .error e => .error e
    | .ok sids =>
      match enrichTop query rest k with
      | .error e => .error e
      | .ok rows => .ok (toRow s sids :: rows)

/-- Model of compute_streaks' persistence phase (lines 110-134): sort by
duration descending, resolve session ids for the top 50, then
`DELETE FROM autonomy_streaks` and insert every computed row, commit.
The first component is the job outcome (`.error` = the exception
propagated and the job aborted before the delete), the second is the
table content afterwards (`oldTable` survives only an aborted job). -/
def runBackfillJob (query : ℚ → Except String (List String)) (events : List Event)
    (gapT minD : ℚ) (oldTable : List StreakRow) :
    Except String (List StreakRow) × List StreakRow :=
  let streaks := sortByDurationDesc (computeStreaks events gapT minD)
  match enrichTop query streaks 50 with
  | .error e => (.error e, oldTable)
  | .ok rows => (.ok rows, rows)

/-- A session-id query that always raises. -/
def failQuery : ℚ → Except String (List String) := fun _ => .error "database is locked"

/-- C5 counterexample: with a failing session-id resolution query on the
two-streak example input, the batch job aborts with the error and the
affected streaks are not persisted (the table keeps its prior content,
here empty) — the failure is not swallowed. -/
theorem sessionFailure_counterexample :
    runBackfillJob failQuery exEvents 30 0 [] = (.error "database is locked", []) := by
  have h2 : computeStreaks exEvents 30 0 =
      [{ start_ts := 0, end_ts := 10, duration_seconds := 10, tool_count := 3,
         avg_gap_seconds := 5, projects := [], top_tools := [("t", 3)] },
       { start_ts := 50, end_ts := 55, duration_seconds := 5, tool_count := 2,
         avg_gap_seconds := 5, projects := [], top_tools := [("t", 2)] }] := by
    norm_num [exEvents, computeStreaks, go, finishRun, mkStreak, mostCommon,
      sortByCountDesc, firstUniques, ctxKeep, round2, pyRound0,
      List.insertionSort, List.orderedInsert, List.count_cons]
  rw [runBackfillJob, h2]
  norm_num [sortByDurationDesc, List.insertionSort, List.orderedInsert, enrichTop, failQuery]

/-- C5 amended: if the session-id resolution queries raise during the
post-pass enrichment, the failure propagates: the batch job aborts with
that error before the delete/insert phase, no streak is persisted, and
the table keeps its previous content. -/
theorem sessionFailure_aborts (query : ℚ → Except String (List String))
    (events : List Event) (gapT minD : ℚ) (oldTable : List StreakRow) (e : String)
    (hfail : ∀ ts, query ts = .error e)
    (hne : computeStreaks events gapT minD ≠ []) :
    runBackfillJob query events gapT minD oldTable = (.error e, oldTable) := by
  rw [runBackfillJob]
  have hne2 : sortByDurationDesc (computeStreaks events gapT minD) ≠ [] := by
    intro h
    rw [sortByDurationDesc] at h
    have hl := (List.perm_insertionSort
      (fun a b => b.duration_seconds ≤ a.duration_seconds)
      (computeStreaks events gapT minD)).length_eq
    rw [h] at hl
    exact hne (List.eq_nil_of_length_eq_zero hl.symm)
  cases hs : sortByDurationDesc (computeStreaks events gapT minD) with
  | nil => exact absurd hs hne2
  | cons s rest => simp [enrichTop, hfail]

/-- Witness for C5-amended: the always-failing query on the two-streak
example. -/
theorem sessionFailure_aborts_witness :
    (∀ ts, failQuery ts = .error "database is locked") ∧
    computeStreaks exEvents 30 0 ≠ [] ∧
    runBackfillJob failQuery exEvents 30 0 [] = (.error "database is locked", []) := by
  have h2 : computeStreaks exEvents 30 0 =
      [{ start_ts := 0, end_ts := 10, duration_seconds := 10, tool_count := 3,
         avg_gap_seconds := 5, projects := [], top_tools := [("t", 3)] },
       { start_ts := 50, end_ts := 55, duration_seconds := 5, tool_count := 2,
         avg_gap_seconds := 5, projects := [], top_tools := [("t", 2)] }] := by
    norm_num [exEvents, computeStreaks, go, finishRun, mkStreak, mostCommon,
      sortByCountDesc, firstUniques, ctxKeep, round2, pyRound0,
      List.insertionSort, List.orderedInsert, List.count_cons]
  have hne : computeStreaks exEvents 30 0 ≠ [] := by rw [h2]; simp
  exact ⟨fun ts => rfl, hne,
    sessionFailure_aborts failQuery exEvents 30 0 [] "database is locked"
      (fun ts => rfl) hne⟩

/-- C10: a run over events yielding zero qualifying streaks still
unconditionally deletes every row of autonomy_streaks and commits: the
job succeeds and the table ends empty regardless of its prior content. -/
theorem backfill_delete_unconditional (query : ℚ → Except String (List String))
    (events : List Event) (gapT minD : ℚ) (oldTable : List StreakRow)
    (h : computeStreaks events gapT minD = []) :
    runBackfillJob query events gapT minD oldTable = (.ok [], []) := by
  rw [runBackfillJob, h]
  simp [sortByDurationDesc, List.insertionSort, enrichTop]

/-- Witness for C10: an empty tool_events table against a table holding a
row. -/
theorem backfill_delete_unconditional_witness :
    computeStreaks [] 30 60 = [] ∧
    runBackfillJob failQuery [] 30 60 [toRow exRoundStreak ["sess-1"]] = (.ok [], []) :=
  ⟨rfl, backfill_delete_unconditional failQuery [] 30 60 [toRow exRoundStreak ["sess-1"]] rfl⟩

-- ───────────────────────── broadcaster (DataStreamer.broadcast) ─────────────

/-- One observable step of the broadcast method: the lock acquisition at
`with self.lock`, a write attempt to one sink (ok = it did not raise),
one registry removal, or the lock release on block exit. -/
inductive BStep where
  | acquire : BStep
  | release : BStep
  | write (sink : ℕ) (frame : String) (ok : Bool) : BStep
  | remove (sink : ℕ) : BStep
deriving DecidableEq, Repr

/-- The SSE event frame, line 93:
`f"event: {event_type}\ndata: {json.dumps(data)}\n\n"`. -/
def sseFrame (eventType : String) (data : Json) : String :=
  "event: " ++ eventType ++ "\ndata: " ++ serialize data ++ "\n\n"

/-- Trace of `DataStreamer.broadcast` (lines 92-104): acquire the lock,
attempt a write to every currently registered sink in order, collect the
failing ones, then remove each dead sink, and release the lock on exit
of the `with` block. -/
def broadcastTrace (eventType : String) (data : Json) (clients : List ℕ)
    (fails : ℕ → Bool) : List BStep :=
  [BStep.acquire]
    ++ clients.map (fun c => BStep.write c (sseFrame eventType data) (!fails c))
    ++ (clients.filter fails).map BStep.remove
    ++ [BStep.release]

/-- Registry content after a broadcast: the sinks whose write succeeded
(`self.clients = [c for c in self.clients if c is not d]` per dead d). -/
def broadcastClients (clients : List ℕ) (fails : ℕ → Bool) : List ℕ :=
  clients.filter (fun c => !fails c)

/-- The (sink, frame) pairs actually delivered in a trace. -/
def deliveredWrites (tr : List BStep) : List (ℕ × String) :=
  tr.filterMap (fun st => match st with
    | .write s f true => some (s, f)
    | _ => none)

/-- Step classifiers. -/
def isWrite : BStep → Bool
  | .write _ _ _ => true
  | _ => false

def isRemove : BStep → Bool
  | .remove _ => true
  | _ => false

def isRelease : BStep → Bool
  | .release => true
  | _ => false

/-- The sink a step touches, if any. -/
def sinkOf : BStep → Option ℕ
  | .write s _ _ => some s
  | .remove s => some s
  | _ => none

/-- Lock state after a step executes (which is also the state while a
non-lock step executes). -/
def stepLock (held : Bool) : BStep → Bool
  | .acquire => true
  | .release => false
  | _ => held

/-- Pair every step of a trace with the lock state in effect while it
executes, starting from a given state. -/
def lockStates : List BStep → Bool → List (BStep × Bool)
  | [], _ => []
  | st :: rest, held => (st, stepLock held st) :: lockStates rest (stepLock held st)

/-- The example frame for the 3-sink scenario. -/
def exFrame : String := "event: stats\ndata: \x7b\"a\": 1\x7d\n\n"

/-- C4: publishing to sinks 1, 2, 3 where sink 2's write raises: sinks 1
and 3 each receive exactly one correctly framed event, sink 2's removal
happens only after the write pass over all sinks (the full trace shows
writes to 1, 2, 3 and only then the removal), the registry afterwards is
[1, 3], and the next publish touches no step of sink 2. -/
theorem broadcast_sink_failure_isolated :
    broadcastTrace "stats" (Json.obj (.cons "a" (.num 1) .nil)) [1, 2, 3] (fun n => n == 2)
      = [BStep.acquire, BStep.write 1 exFrame true, BStep.write 2 exFrame false,
         BStep.write 3 exFrame true, BStep.remove 2, BStep.release]
    ∧ deliveredWrites (broadcastTrace "stats" (Json.obj (.cons "a" (.num 1) .nil))
        [1, 2, 3] (fun n => n == 2)) = [(1, exFrame), (3, exFrame)]
    ∧ broadcastClients [1, 2, 3] (fun n => n == 2) = [1, 3]
    ∧ (∀ st ∈ broadcastTrace "stats" (Json.obj (.cons "a" (.num 1) .nil))
        (broadcastClients [1, 2, 3] (fun n => n == 2)) (fun _ => false),
        sinkOf st ≠ some 2) := by
  refine ⟨by decide, by decide, by decide, by decide⟩

/-- C9 counterexample: in the source, broadcast performs the sink writes
INSIDE the `with self.lock` block, so the claim that the lock is released
before the writes is false: on a registry of one healthy sink, the write
step executes with the lock held. -/
theorem broadcast_lock_counterexample :
    ¬ (∀ p ∈ lockStates (broadcastTrace "stats" (Json.obj .nil) [7]
        (fun _ => false)) false, isWrite p.1 = true → p.2 = false) := by
  decide

theorem lockStates_mid_release_free : ∀ (mid : List BStep),
    (∀ st ∈ mid, isRelease st = false) →
    ∀ p ∈ lockStates (mid ++ [BStep.release]) true, isWrite p.1 = true → p.2 = true
  | [], _, p, hp, hw => by
    simp only [List.nil_append, lockStates, List.mem_singleton] at hp
    rw [hp] at hw
    simp [isWrite] at hw
  | st :: mid, hfree, p, hp, hw => by
    have hst : stepLock true st = true := by
      have := hfree st (List.mem_cons_self st mid)
      cases st <;> simp_all [isRelease, stepLock]
    simp only [List.cons_append, lockStates, hst, List.mem_cons] at hp
    rcases hp with hp | hp
    · rw [hp]
    · exact lockStates_mid_release_free mid
        (fun s hs => hfree s (List.mem_cons_of_mem st hs)) p hp hw

/-- C9 amended: the broadcast method holds the registry lock across the
sink writes: every write step in its trace executes with the lock held,
and the trace is the acquisition, then the write pass (no removal among
it), then the removals (no write among them), then the release — the
removals are applied under the same lock acquisition, not after a
re-acquisition. -/
theorem broadcast_lock_held (eventType : String) (data : Json) (clients : List ℕ)
    (fails : ℕ → Bool) :
    (∀ p ∈ lockStates (broadcastTrace eventType data clients fails) false,
        isWrite p.1 = true → p.2 = true)
    ∧ (∃ w r, broadcastTrace eventType data clients fails
          = [BStep.acquire] ++ w ++ r ++ [BStep.release]
        ∧ (∀ st ∈ w, isRemove st = false ∧ isWrite st = true)
        ∧ (∀ st ∈ r, isWrite st = false ∧ isRemove st = true)) := by
  constructor
  · intro p hp hw
    have : broadcastTrace eventType data clients fails
        = BStep.acquire :: ((clients.map (fun c =>
            BStep.write c (sseFrame eventType data) (!fails c))
          ++ (clients.filter fails).map BStep.remove) ++ [BStep.release]) := by
      simp [broadcastTrace]
    rw [this] at hp
    simp only [lockStates, stepLock, List.mem_cons] at hp
    rcases hp with hp | hp
    · rw [hp] at hw
      simp [isWrite] at hw
    · refine lockStates_mid_release_free _ ?_ p hp hw
      intro st hst
      rcases List.mem_append.mp hst with h | h
      · obtain ⟨c, _, rfl⟩ := List.mem_map.mp h
        rfl
      · obtain ⟨c, _, rfl⟩ := List.mem_map.mp h
        rfl
  · refine ⟨clients.map (fun c => BStep.write c (sseFrame eventType data) (!fails c)),
      (clients.filter fails).map BStep.remove, by simp [broadcastTrace], ?_, ?_⟩
    · intro st hst
      obtain ⟨c, _, rfl⟩ := List.mem_map.mp hst
      exact ⟨rfl, rfl⟩
    · intro st hst
      obtain ⟨c, _, rfl⟩ := List.mem_map.mp hst
      exact ⟨rfl, rfl⟩

-- ───────────────────────── poll loop (DataStreamer._run) ────────────────────

/-- Mutable state of the DataStreamer observed by one tick: the
subscriber registry, the per-name digest map, and the local
health_counter of `_run`. -/
structure DSState where
  clients : List ℕ
  lastHash : List (String × String)
  healthCounter : ℕ
deriving DecidableEq, Repr

/-- What the three snapshot sources would currently return, plus the
heartbeat clock. -/
structure PollEnv where
  statsData : Json
  healthData : Json
  velocityData : Json
  now : Int

/-- One iteration of the `while self.running` body of `_run`
(lines 279-306): returns the names of the snapshots sampled, the events
broadcast (in order), and the new state.  With an empty registry the
whole body is skipped. -/
def tick (env : PollEnv) (st : DSState) :
    List String × List (String × Json) × DSState :=
  if st.clients = [] then ([], [], st)
  else
    let rs := dataChanged "stats" env.statsData st.lastHash
    let statsCast : List (String × Json) :=
      if rs.1 then [("stats", env.statsData)] else []
    let hc := st.healthCounter + 1
    if 5 ≤ hc then
      let rh := dataChanged "health" env.healthData rs.2
      let rv := dataChanged "velocity" env.velocityData rh.2
      (["stats", "health", "velocity"],
        statsCast ++ (if rh.1 then [("health", env.healthData)] else [])
          ++ (if rv.1 then [("velocity", env.velocityData)] else [])
          ++ [("heartbeat", Json.obj (.cons "t" (.num env.now) .nil))],
        { clients := st.clients, lastHash := rv.2, healthCounter := 0 })
    else
      (["stats"],
        statsCast ++ [("heartbeat", Json.obj (.cons "t" (.num env.now) .nil))],
        { clients := st.clients, lastHash := rs.2, healthCounter := hc })

/-- C7: on a poll tick with an empty subscriber registry nothing is
sampled, nothing is broadcast (no heartbeat either), and the state —
digest map included — is left untouched. -/
theorem idle_tick_skips_everything (env : PollEnv) (st : DSState)
    (h : st.clients = []) : tick env st = ([], [], st) := by
  simp [tick, h]

/-- Witness for C7 at a concrete empty-registry state. -/
theorem idle_tick_skips_everything_witness :
    (DSState.clients ⟨[], [("stats", "h0")], 3⟩ = []) ∧
    tick ⟨Json.null, Json.null, Json.null, 0⟩ ⟨[], [("stats", "h0")], 3⟩
      = ([], [], ⟨[], [("stats", "h0")], 3⟩) :=
  ⟨rfl, idle_tick_skips_everything ⟨Json.null, Json.null, Json.null, 0⟩
    ⟨[], [("stats", "h0")], 3⟩ rfl⟩

-- ───────────────────────── snapshot sources (_poll_stats etc.) ──────────────

/-- Model of `_poll_stats` (lines 113-217): the whole body is wrapped in
try/except; a successful attempt returns the assembled payload, any
internal failure returns `{"error": str(e), "timestamp": ...}`.  Totality
in the attempt outcome is the never-raises property. -/
def pollStats (attempt : Except String Json) (now : String) : Json :=
  match attempt with
  | .ok payload => payload
  | .error e => .obj (.cons "error" (.str e) (.cons "timestamp" (.str now) .nil))

/-- Model of `_poll_velocity` (lines 234-258): same try/except shape as
`_poll_stats`. -/
def pollVelocity (attempt : Except String Json) (now : String) : Json :=
  match attempt with
  | .ok payload => payload
  | .error e => .obj (.cons "error" (.str e) (.cons "timestamp" (.str now) .nil))

/-- Model of `_poll_health` (lines 219-232): the try/except only guards
the daemon count (0 on failure); the returned payload is always
`{"daemons": ..., "timestamp": ...}`. -/
def pollHealth (attempt : Except String Int) (now : String) : Json :=
  let daemons : Int :=
    match attempt with
    | .ok n => n
    | .error _ => 0
  .obj (.cons "daemons" (.num daemons) (.cons "timestamp" (.str now) .nil))

/-- Does a payload carry a top-level mapping key? -/
def topHasKey (k : String) : Json → Bool
  | .obj kvs => (keysO kvs).contains k
  | _ => false

/-- C8 counterexample: a failing health poll is caught but does NOT
surface as an `{error: message}` payload — it returns a normal payload
with daemons = 0 and no error key. -/
theorem pollHealth_no_error_payload :
    pollHealth (.error "boom") "T"
      = Json.obj (.cons "daemons" (.num 0) (.cons "timestamp" (.str "T") .nil))
    ∧ topHasKey "error" (pollHealth (.error "boom") "T") = false := by
  refine ⟨rfl, by decide⟩

/-- C8 amended: none of the three snapshot polls propagates an internal
failure (each is total in the attempt outcome); stats and velocity
surface a failure as an `{error, timestamp}` payload, while the health
poll degrades to a normal `{daemons: 0, timestamp}` payload without an
error key. -/
theorem polls_never_raise (e now : String) :
    pollStats (.error e) now
      = Json.obj (.cons "error" (.str e) (.cons "timestamp" (.str now) .nil))
    ∧ pollVelocity (.error e) now
      = Json.obj (.cons "error" (.str e) (.cons "timestamp" (.str now) .nil))
    ∧ pollHealth (.error e) now
      = Json.obj (.cons "daemons" (.num 0) (.cons "timestamp" (.str now) .nil))
    ∧ topHasKey "error" (pollHealth (.error e) now) = false :=
  ⟨rfl, rfl, rfl, rfl⟩
